/-
Verification of the agent core of very-simple-coding-agent: a shallow
embedding in Lean 4 of the data model (src/agent/models.py), the tool
executor (src/agent/tools/executor.py), the conversation history
(src/agent/memory.py), the ReAct turn loop (src/agent/loop.py) and the
streaming response assembler (src/agent/providers/openrouter.py),
together with theorems settling the behavioural claims about them.
-/
import Mathlib

namespace Agent

/-! ## Data model (src/agent/models.py) -/

/-- Message role in a conversation (`Role` in models.py). -/
inductive Role where
  | USER
  | ASSISTANT
  | TOOL
deriving DecidableEq, Repr

/-- Safety level of a tool (`ToolSafety` in models.py). -/
inductive ToolSafety where
  | SAFE
  | REQUIRES_APPROVAL
deriving DecidableEq, Repr

/-- Parsed tool arguments.  In the source this is `dict[str, Any]` with
JSON-compatible values; the claims under study never inspect the value
structure, so values are represented by strings.  The empty dict is `[]`. -/
def Args : Type := List (String × String)

instance : DecidableEq Args := by unfold Args; infer_instance

/-- A tool invocation requested by the assistant (`ToolCall` in models.py). -/
structure ToolCall where
  id : String
  name : String
  arguments : Args
deriving DecidableEq

/-- A single message in the conversation history (`Message` in models.py). -/
structure Message where
  role : Role
  content : String
  tool_call_id : Option String := none
  tool_calls : List ToolCall := []
deriving DecidableEq

/-- The result of executing a tool (`ToolResult` in models.py). -/
structure ToolResult where
  tool_call_id : String
  name : String
  output : String
  is_error : Bool := false
deriving DecidableEq

/-- Token usage for a single completion (`Usage` in models.py). -/
structure Usage where
  input_tokens : Nat := 0
  output_tokens : Nat := 0
deriving DecidableEq

/-- `Usage.total` in models.py: total tokens consumed. -/
def Usage.total (u : Usage) : Nat := u.input_tokens + u.output_tokens

/-- Pairwise accumulation of usage counters, as performed by
`History.record_usage` in memory.py (`self._usage.input_tokens +=
usage.input_tokens; self._usage.output_tokens += usage.output_tokens`). -/
def Usage.accumulate (a b : Usage) : Usage :=
  { input_tokens := a.input_tokens + b.input_tokens
    output_tokens := a.output_tokens + b.output_tokens }

/-! ## Tool executor (src/agent/tools/executor.py) -/

/-- Outcome of awaiting a tool implementation `fn(**arguments)`: a normal
string return, a raised `TypeError` (bad call shape), or any other raised
exception.  This models the three paths distinguished by the
`try/except TypeError/except Exception` in `ToolExecutor._run_tool`. -/
inductive FnOutcome where
  | ok (output : String)
  | typeErr (msg : String)
  | exnErr (msg : String)
deriving DecidableEq

/-- A registry entry: the tool's safety level and its implementation
(`ToolRegistryEntry` with its `definition.safety` and `fn`). -/
structure ToolEntry where
  safety : ToolSafety
  fn : Args → FnOutcome

/-- `TOOL_REGISTRY.get`: lookup by tool name. -/
def Registry : Type := String → Option ToolEntry

/-- Python `str.strip()`: drop leading and trailing whitespace. -/
def pyStrip (s : String) : String :=
  String.mk (((s.data.dropWhile Char.isWhitespace).reverse.dropWhile
    Char.isWhitespace).reverse)

/-- Python `str.lower()`: lowercase every character. -/
def pyLower (s : String) : String :=
  String.mk (s.data.map Char.toLower)

/-- The approval predicate of `ToolExecutor._request_approval`:
`answer.strip().lower() == "y"`. -/
def approvalIsYes (answer : String) : Bool :=
  pyLower (pyStrip answer) == "y"

/-- `ToolExecutor._run_tool`: invoke the tool function and capture the
result, converting a `TypeError` or any other exception into an
error-flagged `ToolResult`. -/
def runTool (tc : ToolCall) (fn : Args → FnOutcome) : ToolResult :=
  match fn tc.arguments with
  | .ok output =>
      { tool_call_id := tc.id, name := tc.name, output := output }
  | .typeErr msg =>
      { tool_call_id := tc.id, name := tc.name
        output := "Error: invalid arguments for tool \x27" ++ tc.name ++ "\x27: " ++ msg
        is_error := true }
  | .exnErr msg =>
      { tool_call_id := tc.id, name := tc.name
        output := "Error: unexpected error in tool \x27" ++ tc.name ++ "\x27: " ++ msg
        is_error := true }

/-- The observable outcome of one `ToolExecutor.execute` call: the returned
`ToolResult`, how many times the approval prompt was shown, and how many
times the underlying tool implementation was invoked. -/
structure ExecOutcome where
  result : ToolResult
  prompts : Nat
  invocations : Nat
deriving DecidableEq

/-- `ToolExecutor.execute`: registry lookup, approval gate for
`REQUIRES_APPROVAL` tools (the user's console answer is `answer`), then
dispatch through `_run_tool`.  Prompt and invocation counts record the
side effects. -/
def execute (reg : Registry) (answer : String) (tc : ToolCall) : ExecOutcome :=
  match reg tc.name with
  | none =>
      { result := { tool_call_id := tc.id, name := tc.name
                    output := "Error: unknown tool \x27" ++ tc.name ++ "\x27."
                    is_error := true }
        prompts := 0, invocations := 0 }
  | some entry =>
      if entry.safety = ToolSafety.REQUIRES_APPROVAL then
        if approvalIsYes answer then
          { result := runTool tc entry.fn, prompts := 1, invocations := 1 }
        else
          { result := { tool_call_id := tc.id, name := tc.name
                        output := "Tool execution denied by user."
                        is_error := true }
            prompts := 1, invocations := 0 }
      else
        { result := runTool tc entry.fn, prompts := 0, invocations := 1 }

/-! ## Conversation history (src/agent/memory.py) -/

/-- `History`: the ordered message log, cumulative usage and the soft
token ceiling (`_messages`, `_usage`, `max_history_tokens`). -/
structure History where
  msgs : List Message := []
  usage : Usage := {}
  max_history_tokens : Nat := 80000
deriving DecidableEq

/-- `History.append`: append a message to the log. -/
def History.append (h : History) (m : Message) : History :=
  { h with msgs := h.msgs ++ [m] }

/-- `History.record_usage`: accumulate token usage from a completion. -/
def History.record_usage (h : History) (u : Usage) : History :=
  { h with usage := h.usage.accumulate u }

/-- `History.is_over_limit`: `self._usage.total > self.max_history_tokens`. -/
def History.is_over_limit (h : History) : Bool :=
  h.max_history_tokens < h.usage.total

/-- `History.clear`: wipe messages and reset usage. -/
def History.clear (h : History) : History :=
  { h with msgs := [], usage := {} }

/-- `History.compact`: if the log is empty, return unchanged without
calling the summarizer; otherwise obtain `provider.summarize` of the
current messages, replace the whole log by one synthetic ASSISTANT
message wrapping the summary, and reset usage.  The second component
counts the summarizer calls made. -/
def History.compact (h : History) (summarize : List Message → String) :
    History × Nat :=
  if h.msgs = [] then (h, 0)
  else
    ({ h with
        msgs := [{ role := Role.ASSISTANT
                   content := "[Conversation summary]\n" ++ summarize h.msgs }]
        usage := {} },
      1)

/-! ## Snapshot semantics of the messages accessor

The `messages` property returns `list(self._messages)` — a freshly
allocated copy.  To express Python's reference semantics we use a tiny
heap of message lists: a `History` owns one cell, and the accessor
allocates a new cell holding a copy of the log.  Caller mutations are
writes to the returned cell. -/

/-- A heap of message-list cells; a reference is an index. -/
abbrev Heap : Type := List (List Message)

/-- Allocate a fresh cell holding `v`; returns the new reference. -/
def Heap.alloc (heap : Heap) (v : List Message) : Nat × Heap :=
  (List.length heap, heap ++ [v])

/-- Overwrite the cell at `r` (models any caller mutation of a list). -/
def Heap.write (heap : Heap) (r : Nat) (v : List Message) : Heap :=
  List.set heap r v

/-- Read the cell at `r`. -/
def Heap.read (heap : Heap) (r : Nat) : List Message :=
  List.getD heap r []

/-- A `History` whose `_messages` list lives in the heap cell `ref`. -/
structure HistoryRef where
  ref : Nat
deriving DecidableEq

/-- The `messages` property: `return list(self._messages)` — allocate a
fresh cell containing a copy of the internal log and hand its reference
to the caller. -/
def HistoryRef.messagesSnapshot (h : HistoryRef) (heap : Heap) : Nat × Heap :=
  Heap.alloc heap (Heap.read heap h.ref)

/-! ## Turn loop (src/agent/loop.py) -/

/-- `_MAX_ITERATIONS` in loop.py. -/
def MAX_ITERATIONS : Nat := 20

/-- A provider adapter's `stream_completion`, abstracted as a pure oracle
from the current message list to the assembled message and usage. -/
abbrev Provider : Type := List Message → Message × Usage

/-- The TOOL message appended by `run_turn` for one tool result:
`Message(role=Role.TOOL, content=result.output, tool_call_id=result.tool_call_id)`. -/
def toolMessage (r : ToolResult) : Message :=
  { role := Role.TOOL, content := r.output, tool_call_id := some r.tool_call_id }

/-- The ACT + OBSERVE phase of one loop iteration: execute each requested
tool call in order and append its TOOL message to the history.  The
executor is abstracted as a function from tool call to result. -/
def actPhase (ex : ToolCall → ToolResult) (tcs : List ToolCall)
    (h : History) : History :=
  tcs.foldl (fun acc tc => acc.append (toolMessage (ex tc))) h

/-- The `for iteration in range(_MAX_ITERATIONS)` loop of `run_turn`,
with the remaining iteration budget as fuel.  Each iteration requests a
completion, records usage, appends the assembled message, stops if it
carries no tool calls, and otherwise runs the ACT phase and continues.
Returns the final history and the number of completion requests made. -/
def runLoop (p : Provider) (ex : ToolCall → ToolResult) :
    Nat → History → History × Nat
  | 0, h => (h, 0)
  | fuel + 1, h =>
      let r := p h.msgs
      let h1 := (h.record_usage r.2).append r.1
      if r.1.tool_calls.isEmpty then (h1, 1)
      else
        let h2 := actPhase ex r.1.tool_calls h1
        let rest := runLoop p ex fuel h2
        (rest.1, rest.2 + 1)

/-- `run_turn`: append the user message, then run the bounded ReAct
loop. -/
def run_turn (p : Provider) (ex : ToolCall → ToolResult)
    (user_input : String) (h : History) : History × Nat :=
  runLoop p ex MAX_ITERATIONS
    (h.append { role := Role.USER, content := user_input })

/-! ## Streaming response assembler (src/agent/providers/openrouter.py)

`OpenRouterAdapter.stream_completion` consumes a stream of chunks.  A
chunk may carry a usage report and/or one choice delta; a delta may carry
a text fragment and/or tool-call fragments.  Python truthiness tests
(`if delta.content:`, `if tc_delta.id:`, …) treat `None` and the empty
string alike, so absent string fields are modelled as `""`. -/

/-- Ordered concatenation of a list of strings (`"".join(...)`). -/
def concatStrings (l : List String) : String :=
  l.foldr (fun s r => s ++ r) ""

/-- One tool-call fragment (`tc_delta`): slot index plus optional id,
function-name and argument-text pieces (empty string = absent). -/
structure TCDelta where
  index : Nat
  id : String := ""
  name : String := ""
  args : String := ""
deriving DecidableEq

/-- One choice delta: optional text content plus tool-call fragments. -/
structure Delta where
  content : String := ""
  tool_calls : List TCDelta := []
deriving DecidableEq

/-- One stream chunk: optional usage report and optional first choice
(`if not chunk.choices: continue`). -/
structure Chunk where
  usage : Option Usage := none
  choice : Option Delta := none
deriving DecidableEq

/-- An in-progress tool-call record: `{"id": "", "name": "", "args": ""}`. -/
structure SlotAcc where
  id : String := ""
  name : String := ""
  args : String := ""
deriving DecidableEq

/-- The assembler's accumulators: `text_parts`, `tool_calls_acc` (keyed
by slot index, first-seen order) and the latest `usage`. -/
structure AsmState where
  text_parts : List String := []
  acc : List (Nat × SlotAcc) := []
  usage : Usage := {}
deriving DecidableEq

/-- The fresh slot record `{"id": "", "name": "", "args": ""}`. -/
def initSlot : SlotAcc := {}

/-- Update one in-progress record with a fragment's pieces: overwrite
id/name when a nonempty piece arrives, append nonempty argument text. -/
def updSlot (d : TCDelta) (a : SlotAcc) : SlotAcc :=
  { id := if d.id ≠ "" then d.id else a.id
    name := if d.name ≠ "" then d.name else a.name
    args := if d.args ≠ "" then a.args ++ d.args else a.args }

/-- Apply one tool-call fragment to the slot map: create the slot record
on first sight, then update the record at the fragment's index. -/
def applyTCDelta (acc : List (Nat × SlotAcc)) (d : TCDelta) :
    List (Nat × SlotAcc) :=
  (if acc.any (fun p => p.1 == d.index) then acc
   else acc ++ [(d.index, initSlot)]).map (fun p =>
    if p.1 = d.index then (p.1, updSlot d p.2) else p)

/-- Process one chunk: capture usage if present, then — when a choice is
present — append a nonempty text fragment and fold the tool-call
fragments into the slot map. -/
def processChunk (st : AsmState) (c : Chunk) : AsmState :=
  let st1 := match c.usage with
    | some u => { st with usage := u }
    | none => st
  match c.choice with
  | none => st1
  | some delta =>
      let st2 := if delta.content ≠ ""
        then { st1 with text_parts := st1.text_parts ++ [delta.content] }
        else st1
      { st2 with acc := delta.tool_calls.foldl applyTCDelta st2.acc }

/-- The accumulator state after the whole stream. -/
def finalState (chunks : List Chunk) : AsmState :=
  chunks.foldl processChunk {}

/-- `for idx in sorted(tool_calls_acc)`: the populated slot indices in
ascending order. -/
def assembledSlots (chunks : List Chunk) : List Nat :=
  List.insertionSort (· ≤ ·) ((finalState chunks).acc.map Prod.fst)

/-- Finalizing one slot's argument text:
`json.loads(raw["args"]) if raw["args"] else {}` with a
`json.JSONDecodeError` handler that degrades to `{}`.  The JSON parser is
abstracted as `parse`; `none` models a raised decode error. -/
def finalizeArgs (parse : String → Option Args) (raw : String) : Args :=
  if raw = "" then []
  else match parse raw with
    | some a => a
    | none => []

/-- The slot record for index `i` in the final state. -/
def slotRecord (chunks : List Chunk) (i : Nat) : SlotAcc :=
  (List.lookup i (finalState chunks).acc).getD initSlot

/-- The accumulated argument text of `slot` in a slot map (empty when
the slot is absent). -/
def argsAt (acc : List (Nat × SlotAcc)) (slot : Nat) : String :=
  ((List.lookup slot acc).getD initSlot).args

/-- `stream_completion`, as a function of the fragment stream: the
assembled ASSISTANT message (concatenated text, finalized tool calls in
ascending slot order) and the captured usage. -/
def stream_completion (parse : String → Option Args) (chunks : List Chunk) :
    Message × Usage :=
  let st := finalState chunks
  let tcs := (assembledSlots chunks).map (fun i =>
    let raw := slotRecord chunks i
    ToolCall.mk raw.id raw.name (finalizeArgs parse raw.args))
  ({ role := Role.ASSISTANT, content := concatStrings st.text_parts
     tool_calls := tcs },
   st.usage)

/-- The text deltas of a stream, in arrival order (nonempty contents of
chunks that carry a choice). -/
def textDeltas (chunks : List Chunk) : List String :=
  chunks.filterMap (fun c =>
    match c.choice with
    | some d => if d.content ≠ "" then some d.content else none
    | none => none)

/-- The argument fragments delivered for one slot by one delta list. -/
def deltaArgFragments (ds : List TCDelta) (slot : Nat) : List String :=
  ds.filterMap (fun d =>
    if d.index = slot ∧ d.args ≠ "" then some d.args else none)

/-- The argument fragments delivered for one slot by the whole stream,
in arrival order. -/
def argFragments (chunks : List Chunk) (slot : Nat) : List String :=
  (chunks.map (fun c =>
    match c.choice with
    | some d => deltaArgFragments d.tool_calls slot
    | none => [])).flatten

/-- Whether any fragment of the stream addresses `slot`. -/
def slotTouched (chunks : List Chunk) (slot : Nat) : Bool :=
  chunks.any (fun c =>
    match c.choice with
    | some d => d.tool_calls.any (fun t => t.index == slot)
    | none => false)

/-! ## Concrete fixtures used by witnesses and counterexamples -/

/-- A registry entry for an approval-gated tool whose implementation
returns normally. -/
def entryApproval : ToolEntry :=
  { safety := ToolSafety.REQUIRES_APPROVAL, fn := fun _ => .ok "ran" }

/-- A one-tool registry holding `entryApproval` under the name
`write_file`. -/
def regApproval : Registry :=
  fun n => if n = "write_file" then some entryApproval else none

/-- A concrete tool call addressed to `write_file`. -/
def tcWrite : ToolCall := { id := "tc-1", name := "write_file", arguments := [] }

/-- A fresh empty history. -/
def hEmpty : History := {}

/-- A one-message history. -/
def hOne : History := { msgs := [{ role := Role.USER, content := "hi" }] }

/-- Two concrete tool calls to the `think` tool. -/
def tcA : ToolCall := { id := "a1", name := "think", arguments := [] }

/-- Second concrete `think` call. -/
def tcB : ToolCall := { id := "b1", name := "think", arguments := [] }

/-- An executor oracle that echoes the call id as output. -/
def exEcho : ToolCall → ToolResult :=
  fun tc => { tool_call_id := tc.id, name := tc.name, output := tc.id }

/-- An assistant message carrying two tool calls. -/
def mTwoCalls : Message :=
  { role := Role.ASSISTANT, content := "", tool_calls := [tcA, tcB] }

/-- A provider oracle that always answers with `mTwoCalls`. -/
def pConstTwo : Provider := fun _ => (mTwoCalls, {})

/-! ## Helper lemmas on heap cells and the loop -/

/-- Reading below the length of the left part of an append. -/
theorem aux_getD_append_lt (l₁ l₂ : List (List Message)) (i : Nat)
    (hi : i < l₁.length) :
    List.getD (l₁ ++ l₂) i [] = List.getD l₁ i [] := by
  induction l₁ generalizing i with
  | nil => simp at hi
  | cons a t ih =>
      cases i with
      | zero => rfl
      | succ n => simpa using ih n (by simpa using hi)

/-- Reading the freshly appended cell. -/
theorem aux_getD_append_self (l₁ : List (List Message)) (v : List Message) :
    List.getD (l₁ ++ [v]) l₁.length [] = v := by
  induction l₁ with
  | nil => rfl
  | cons a t ih => simp [ih]

/-- Writing one cell leaves every other cell unchanged. -/
theorem aux_getD_set_ne (l : List (List Message)) (i j : Nat)
    (v : List Message) (hij : i ≠ j) :
    List.getD (l.set i v) j [] = List.getD l j [] := by
  induction l generalizing i j with
  | nil => rfl
  | cons a t ih =>
      cases i with
      | zero =>
          cases j with
          | zero => exact absurd rfl hij
          | succ m => rfl
      | succ n =>
          cases j with
          | zero => rfl
          | succ m => simpa using ih n m (by omega)

/-- The ACT phase appends exactly one TOOL message per requested call, in
request order. -/
theorem aux_actPhase_msgs (ex : ToolCall → ToolResult) (tcs : List ToolCall)
    (h : History) :
    (actPhase ex tcs h).msgs = h.msgs ++ tcs.map (fun tc => toolMessage (ex tc)) := by
  induction tcs generalizing h with
  | nil => simp [actPhase]
  | cons tc rest ih =>
      simp [actPhase] at ih ⊢
      rw [ih]
      simp [History.append, List.append_assoc]

/-- The loop performs at most `fuel` completion requests. -/
theorem aux_runLoop_count_le (p : Provider) (ex : ToolCall → ToolResult) :
    ∀ fuel h, (runLoop p ex fuel h).2 ≤ fuel := by
  intro fuel
  induction fuel with
  | zero => intro h; simp [runLoop]
  | succ n ih =>
      intro h
      simp only [runLoop]
      split
      · exact Nat.succ_le_succ (Nat.zero_le n)
      · exact Nat.succ_le_succ (ih _)

/-- Under a provider that always requests the same nonempty tool-call
list, every iteration appends the assistant message and its TOOL
messages, and all `n` permitted completions are used. -/
theorem aux_runLoop_const (m : Message) (u : Usage) (ex : ToolCall → ToolResult)
    (htc : m.tool_calls ≠ []) :
    ∀ n h,
      (runLoop (fun _ => (m, u)) ex n h).1.msgs
        = h.msgs ++ (List.replicate n
            ([m] ++ m.tool_calls.map (fun tc => toolMessage (ex tc)))).flatten ∧
      (runLoop (fun _ => (m, u)) ex n h).2 = n := by
  intro n
  induction n with
  | zero => intro h; simp [runLoop]
  | succ k ih =>
      intro h
      have hne : m.tool_calls.isEmpty = false := by
        cases hmt : m.tool_calls with
        | nil => exact absurd hmt htc
        | cons a l => rfl
      simp only [runLoop, hne, Bool.false_eq_true, if_false]
      constructor
      · rw [(ih _).1]
        rw [aux_actPhase_msgs]
        simp [History.append, History.record_usage, List.replicate_succ,
          List.append_assoc]
      · rw [(ih _).2]

/-! ## Claim theorems: history, snapshot and the turn loop -/

/-- **C7.** `History.compact` on an empty history is a no-op that makes
zero summarizer calls; on a non-empty history it calls the summarizer
exactly once and afterwards the log is exactly one ASSISTANT message
wrapping the summary, with usage reset to zero. -/
theorem history_compact_spec (summarize : List Message → String) (h : History) :
    ((h.compact summarize).2 = if h.msgs.isEmpty then 0 else 1) ∧
    (h.msgs = [] → (h.compact summarize).1 = h) ∧
    (h.msgs ≠ [] →
      (h.compact summarize).1.msgs =
        [{ role := Role.ASSISTANT
           content := "[Conversation summary]\n" ++ summarize h.msgs }] ∧
      (h.compact summarize).1.usage = {}) := by
  unfold History.compact
  by_cases he : h.msgs = [] <;> simp [he]

/-- **C7 witness.** The compaction theorem applied to a concrete
one-message history and a constant summarizer. -/
theorem history_compact_example :
    (hOne.compact (fun _ => "S")).1.msgs.length = 1 ∧
    (hOne.compact (fun _ => "S")).1.usage = {} ∧
    (hOne.compact (fun _ => "S")).2 = 1 := by
  have h := history_compact_spec (fun _ => "S") hOne
  have h2 := h.2.2 (by simp [hOne])
  refine ⟨by rw [h2.1]; rfl, h2.2, ?_⟩
  rw [h.1]; rfl

/-- **C9.** The `messages` accessor returns a freshly allocated snapshot:
any caller mutation of the returned cell leaves the history's internal
log unchanged, the snapshot's content equals the internal log, and two
successive accessor calls with no history operation in between observe
the same sequence. -/
theorem messages_snapshot_isolation (heap : Heap) (h : HistoryRef)
    (v : List Message) (href : h.ref < heap.length) :
    Heap.read
        (Heap.write (h.messagesSnapshot heap).2 (h.messagesSnapshot heap).1 v)
        h.ref
      = Heap.read heap h.ref ∧
    Heap.read (h.messagesSnapshot heap).2 (h.messagesSnapshot heap).1
      = Heap.read heap h.ref ∧
    Heap.read (h.messagesSnapshot (h.messagesSnapshot heap).2).2
        (h.messagesSnapshot (h.messagesSnapshot heap).2).1
      = Heap.read (h.messagesSnapshot heap).2 (h.messagesSnapshot heap).1 := by
  have hne : List.length heap ≠ h.ref := Ne.symm (Nat.ne_of_lt href)
  unfold HistoryRef.messagesSnapshot Heap.alloc Heap.write Heap.read
  dsimp only
  refine ⟨?_, ?_, ?_⟩
  · rw [aux_getD_set_ne _ _ _ _ hne]
    exact aux_getD_append_lt heap _ h.ref href
  · exact aux_getD_append_self heap _
  · simp only [aux_getD_append_self]
    exact aux_getD_append_lt heap _ h.ref href

/-- **C9 witness.** The snapshot-isolation theorem at a concrete
one-cell heap, with the snapshot cell overwritten by the caller. -/
theorem messages_snapshot_example :
    Heap.read
        (Heap.write
          ((HistoryRef.mk 0).messagesSnapshot [hOne.msgs]).2
          ((HistoryRef.mk 0).messagesSnapshot [hOne.msgs]).1 [])
        0
      = hOne.msgs := by
  have h := messages_snapshot_isolation [hOne.msgs] (HistoryRef.mk 0) []
    (by simp)
  calc Heap.read
        (Heap.write
          ((HistoryRef.mk 0).messagesSnapshot [hOne.msgs]).2
          ((HistoryRef.mk 0).messagesSnapshot [hOne.msgs]).1 []) 0
      = Heap.read [hOne.msgs] 0 := h.1
    _ = hOne.msgs := rfl

/-- **C5.** The turn loop performs at most 20 completion requests
(REASON iterations) per user turn, however many tool calls the model
keeps requesting; the loop is a total function, so reaching the ceiling
terminates the turn without any exception, returning the history exactly
as accumulated. -/
theorem turn_loop_iteration_cap (p : Provider) (ex : ToolCall → ToolResult)
    (user : String) (h : History) :
    (run_turn p ex user h).2 ≤ 20 := by
  have := aux_runLoop_count_le p ex MAX_ITERATIONS
    (h.append { role := Role.USER, content := user })
  simpa [run_turn, MAX_ITERATIONS] using this

/-- **C6.** When an assembled assistant message carries a nonempty
tool-call list, the loop's ACT phase appends, in the order the model
issued the calls, exactly one TOOL message per call whose content is the
result's output and whose tool-call id is the result's id — and only
after all of them does the next REASON completion run (the recursive
call receives the acted history, and the completion count grows by one). -/
theorem turn_loop_act_in_order (p : Provider) (ex : ToolCall → ToolResult)
    (fuel : Nat) (h : History) (m : Message) (u : Usage)
    (hp : p h.msgs = (m, u)) (htc : m.tool_calls ≠ []) :
    (actPhase ex m.tool_calls ((h.record_usage u).append m)).msgs
      = (h.msgs ++ [m]) ++ m.tool_calls.map (fun tc =>
          { role := Role.TOOL, content := (ex tc).output
            tool_call_id := some (ex tc).tool_call_id }) ∧
    runLoop p ex (fuel + 1) h
      = ((runLoop p ex fuel
            (actPhase ex m.tool_calls ((h.record_usage u).append m))).1,
         (runLoop p ex fuel
            (actPhase ex m.tool_calls ((h.record_usage u).append m))).2 + 1) := by
  have hne : m.tool_calls.isEmpty = false := by
    cases hmt : m.tool_calls with
    | nil => exact absurd hmt htc
    | cons a l => rfl
  constructor
  · rw [aux_actPhase_msgs]
    simp [History.append, History.record_usage, toolMessage]
  · simp only [runLoop, hp, hne, Bool.false_eq_true, if_false]

/-- **C6 witness.** The ACT-phase theorem applied to a provider issuing
two `think` calls in one response: two TOOL messages with contents
`"a1"` then `"b1"`, in that order. -/
theorem turn_loop_act_example :
    (actPhase exEcho mTwoCalls.tool_calls
        ((hEmpty.record_usage {}).append mTwoCalls)).msgs
      = (hEmpty.msgs ++ [mTwoCalls]) ++ mTwoCalls.tool_calls.map (fun tc =>
          { role := Role.TOOL, content := (exEcho tc).output
            tool_call_id := some (exEcho tc).tool_call_id }) :=
  (turn_loop_act_in_order pConstTwo exEcho 0 hEmpty mTwoCalls {} rfl
    (by simp [mTwoCalls])).1

/-- **C10.** When the model never stops requesting tools, all 20
permitted iterations run and each one — including the 20th and last —
executes its tool calls and appends their TOOL messages before the turn
aborts: the final history is the user message followed by 20 blocks each
consisting of the assistant message and its TOOL messages, so the turn
ends with TOOL messages that were never sent back to the provider. -/
theorem final_iteration_still_acts (m : Message) (u : Usage)
    (ex : ToolCall → ToolResult) (user : String) (h : History)
    (htc : m.tool_calls ≠ []) :
    (run_turn (fun _ => (m, u)) ex user h).2 = 20 ∧
    (run_turn (fun _ => (m, u)) ex user h).1.msgs
      = (h.msgs ++ [{ role := Role.USER, content := user }])
        ++ (List.replicate 20 ([m] ++ m.tool_calls.map (fun tc =>
              { role := Role.TOOL, content := (ex tc).output
                tool_call_id := some (ex tc).tool_call_id }))).flatten := by
  have hc := aux_runLoop_const m u ex htc MAX_ITERATIONS
    (h.append { role := Role.USER, content := user })
  refine ⟨?_, ?_⟩
  · exact (hc.2 : _)
  · rw [show (run_turn (fun _ => (m, u)) ex user h).1
        = (runLoop (fun _ => (m, u)) ex MAX_ITERATIONS
            (h.append { role := Role.USER, content := user })).1 from rfl]
    rw [hc.1]
    simp [History.append, MAX_ITERATIONS, toolMessage]

/-- **C10 witness.** The ceiling theorem at a concrete provider that
always issues two `think` calls: the turn makes exactly 20 completions. -/
theorem final_iteration_still_acts_example :
    (run_turn (fun _ => (mTwoCalls, ({} : Usage))) exEcho "go" hEmpty).2 = 20 :=
  (final_iteration_still_acts mTwoCalls {} exEcho "go" hEmpty
    (by simp [mTwoCalls])).1



/-! ## Claim theorems: Usage algebra and the executor -/

/-- **C8.** Usage accumulation (pairwise sum of input-token and
output-token counters) is associative and commutative, and the derived
total of any Usage equals its input tokens plus its output tokens. -/
theorem usage_accumulate_assoc_comm_total (a b c : Usage) :
    Usage.accumulate (Usage.accumulate a b) c
      = Usage.accumulate a (Usage.accumulate b c) ∧
    Usage.accumulate a b = Usage.accumulate b a ∧
    Usage.total a = a.input_tokens + a.output_tokens := by
  refine ⟨?_, ?_, rfl⟩ <;> simp [Usage.accumulate] <;> omega

/-- **C2.** `ToolExecutor.execute` is total (modelled as a Lean function
returning a `ToolResult` in every case, never an exception): an unknown
tool name yields an error-flagged result, a `TypeError` or any other
exception inside the tool implementation yields an error-flagged result
through `_run_tool`, and in every outcome the returned result carries the
originating call's id and tool name. -/
theorem execute_never_raises_preserves_ids (reg : Registry) (answer : String)
    (tc : ToolCall) :
    (execute reg answer tc).result.tool_call_id = tc.id ∧
    (execute reg answer tc).result.name = tc.name ∧
    (reg tc.name = none → (execute reg answer tc).result.is_error = true) ∧
    (∀ fn msg, fn tc.arguments = FnOutcome.typeErr msg →
      (runTool tc fn).is_error = true ∧ (runTool tc fn).tool_call_id = tc.id) ∧
    (∀ fn msg, fn tc.arguments = FnOutcome.exnErr msg →
      (runTool tc fn).is_error = true ∧ (runTool tc fn).tool_call_id = tc.id) := by
  refine ⟨?_, ?_, ?_, ?_, ?_⟩
  · unfold execute
    cases h : reg tc.name with
    | none => simp
    | some entry =>
      simp only []
      split
      · split
        · unfold runTool; cases entry.fn tc.arguments <;> simp
        · simp
      · unfold runTool; cases entry.fn tc.arguments <;> simp
  · unfold execute
    cases h : reg tc.name with
    | none => simp
    | some entry =>
      simp only []
      split
      · split
        · unfold runTool; cases entry.fn tc.arguments <;> simp
        · simp
      · unfold runTool; cases entry.fn tc.arguments <;> simp
  · intro h; unfold execute; rw [h]
  · intro fn msg h; unfold runTool; rw [h]; exact ⟨rfl, rfl⟩
  · intro fn msg h; unfold runTool; rw [h]; exact ⟨rfl, rfl⟩

/-- **C1 counterexample.** The claim says only an exact affirmative
`"y"` (case-insensitive) is approval and every other answer is a denial
with the implementation never invoked.  The answer `" y"` is not the
exact string `"y"` even case-insensitively, yet `execute` approves it
(the code strips whitespace first): the implementation runs once and the
result is not error-flagged, so no denial occurred. -/
theorem approval_exact_y_claim_false :
    pyLower " y" ≠ "y" ∧
    (execute regApproval " y" tcWrite).invocations = 1 ∧
    (execute regApproval " y" tcWrite).result.is_error = false ∧
    (execute regApproval " y" tcWrite).result.output = "ran" := by
  refine ⟨by decide, ?_, ?_, ?_⟩ <;>
    simp [execute, regApproval, tcWrite, entryApproval, approvalIsYes,
      pyStrip, pyLower, runTool]

/-- **C1 (amended).** For a tool whose registry entry is
`REQUIRES_APPROVAL`, `execute` prompts exactly once and treats exactly
the whitespace-stripped, case-insensitive `"y"` as approval; every other
answer, including empty input, is a denial: the result is error-flagged,
its output contains `"denied by user"`, and the underlying implementation
is never invoked.  For a `SAFE` tool the approval prompt is never
triggered. -/
theorem executor_approval_gate (reg : Registry) (answer : String)
    (tc : ToolCall) (entry : ToolEntry) (hreg : reg tc.name = some entry) :
    (entry.safety = ToolSafety.REQUIRES_APPROVAL →
      (execute reg answer tc).prompts = 1 ∧
      (pyLower (pyStrip answer) ≠ "y" →
        (execute reg answer tc).result.is_error = true ∧
        List.IsInfix ("denied by user").data
          (execute reg answer tc).result.output.data ∧
        (execute reg answer tc).invocations = 0) ∧
      (pyLower (pyStrip answer) = "y" →
        (execute reg answer tc).invocations = 1)) ∧
    (entry.safety = ToolSafety.SAFE →
      (execute reg answer tc).prompts = 0) := by
  unfold execute approvalIsYes
  rw [hreg]
  simp only []
  constructor
  · intro hsafety
    rw [if_pos hsafety]
    by_cases hy : pyLower (pyStrip answer) = "y"
    · rw [if_pos (by simpa using hy)]
      exact ⟨rfl, fun hne => absurd hy hne, fun _ => rfl⟩
    · rw [if_neg (by simpa using hy)]
      refine ⟨rfl, fun _ => ⟨rfl, ?_, rfl⟩, fun h => absurd h hy⟩
      show List.IsInfix ("denied by user").data
        ("Tool execution denied by user.").data
      decide
  · intro hsafe
    rw [if_neg (by rw [hsafe]; decide)]

/-- **C1 witness.** Instantiates the amended approval-gate theorem at a
concrete approval-gated registry with the denial answer `"n"`. -/
theorem executor_approval_gate_denial_example :
    (execute regApproval "n" tcWrite).result.is_error = true ∧
    (execute regApproval "n" tcWrite).invocations = 0 ∧
    (execute regApproval "n" tcWrite).prompts = 1 := by
  have h := executor_approval_gate regApproval "n" tcWrite entryApproval
    (by simp [regApproval, tcWrite])
  have h1 := h.1 rfl
  have h2 := h1.2.1 (by decide)
  exact ⟨h2.1, h2.2.2, h1.1⟩

/-- **C2 witness.** Instantiates the totality/correlation theorem at a
concrete unknown-tool call, discharging the unknown-tool hypothesis. -/
theorem execute_unknown_tool_example :
    (execute (fun _ => none) "y" tcWrite).result.is_error = true ∧
    (execute (fun _ => none) "y" tcWrite).result.tool_call_id = "tc-1" := by
  have h := execute_never_raises_preserves_ids (fun _ => none) "y" tcWrite
  exact ⟨h.2.2.1 rfl, h.1⟩

/-! ## Helper lemmas on the response assembler -/

/-- Concatenation distributes over list append. -/
theorem aux_concatStrings_append (a b : List String) :
    concatStrings (a ++ b) = concatStrings a ++ concatStrings b := by
  induction a with
  | nil =>
      show concatStrings b = "" ++ concatStrings b
      rw [String.empty_append]
  | cons s t ih =>
      show s ++ concatStrings (t ++ b) = (s ++ concatStrings t) ++ concatStrings b
      rw [ih, String.append_assoc]

/-- Processing one chunk appends exactly its (nonempty) text fragment. -/
theorem aux_processChunk_text (st : AsmState) (c : Chunk) :
    (processChunk st c).text_parts
      = st.text_parts ++ (match c.choice with
          | some d => if d.content ≠ "" then [d.content] else []
          | none => []) := by
  unfold processChunk
  cases c.usage with
  | none =>
      cases c.choice with
      | none => simp
      | some d => by_cases hd : d.content = "" <;> simp [hd]
  | some u =>
      cases c.choice with
      | none => simp
      | some d => by_cases hd : d.content = "" <;> simp [hd]

/-- The final text buffer is the stream's text deltas in arrival order. -/
theorem aux_foldl_text (chunks : List Chunk) :
    ∀ st : AsmState,
      (chunks.foldl processChunk st).text_parts
        = st.text_parts ++ textDeltas chunks := by
  induction chunks with
  | nil => intro st; simp [textDeltas]
  | cons c rest ih =>
      intro st
      simp only [List.foldl_cons]
      rw [ih, aux_processChunk_text]
      simp only [textDeltas, List.filterMap_cons]
      cases hc : c.choice with
      | none => simp [textDeltas]
      | some d =>
          by_cases hd : d.content = "" <;>
            simp [hd, textDeltas, List.append_assoc]

/-- Looking a key up after updating all entries with key `i`. -/
theorem aux_lookup_map_upd (acc : List (Nat × SlotAcc)) (i : Nat)
    (g : SlotAcc → SlotAcc) (slot : Nat) :
    List.lookup slot (acc.map (fun p => if p.1 = i then (p.1, g p.2) else p))
      = if slot = i then (List.lookup slot acc).map g
        else List.lookup slot acc := by
  induction acc with
  | nil => by_cases hsi : slot = i <;> simp [List.lookup, hsi]
  | cons p t ih =>
      obtain ⟨k, v⟩ := p
      simp only [List.map_cons]
      by_cases hki : k = i
      · rw [if_pos hki]
        subst hki
        by_cases hsk : slot = k
        · subst hsk
          simp [List.lookup]
        · simp [List.lookup, beq_false_of_ne hsk, ih, hsk]
      · rw [if_neg hki]
        by_cases hsk : slot = k
        · subst hsk
          simp [List.lookup, hki]
        · simp [List.lookup, beq_false_of_ne hsk, ih]

/-- Looking a key up after appending one fresh entry. -/
theorem aux_lookup_append_single (acc : List (Nat × SlotAcc)) (i : Nat)
    (v : SlotAcc) (slot : Nat) :
    List.lookup slot (acc ++ [(i, v)])
      = match List.lookup slot acc with
        | some w => some w
        | none => if slot = i then some v else none := by
  induction acc with
  | nil =>
      by_cases hsi : slot = i
      · simp [List.lookup, hsi]
      · simp [List.lookup, beq_false_of_ne hsi, hsi]
  | cons p t ih =>
      obtain ⟨k, w⟩ := p
      by_cases hsk : slot = k
      · subst hsk; simp [List.lookup]
      · simp [List.lookup, beq_false_of_ne hsk, ih]

/-- Membership test and lookup agree on the slot map. -/
theorem aux_any_eq_lookup_isSome (acc : List (Nat × SlotAcc)) (i : Nat) :
    acc.any (fun p => p.1 == i) = (List.lookup i acc).isSome := by
  induction acc with
  | nil => simp [List.lookup]
  | cons p t ih =>
      obtain ⟨k, v⟩ := p
      by_cases hki : k = i
      · subst hki; simp [List.lookup]
      · simp [List.lookup, beq_false_of_ne hki,
          beq_false_of_ne (Ne.symm hki), ih]

/-- One tool-call fragment appends its (nonempty) argument piece to
exactly its own slot's argument text. -/
theorem aux_argsAt_applyTCDelta (acc : List (Nat × SlotAcc)) (d : TCDelta)
    (slot : Nat) :
    argsAt (applyTCDelta acc d) slot
      = argsAt acc slot
        ++ (if d.index = slot ∧ d.args ≠ "" then d.args else "") := by
  unfold applyTCDelta argsAt
  by_cases hpresent : acc.any (fun p => p.1 == d.index)
  · rw [if_pos hpresent, aux_lookup_map_upd]
    by_cases hs : slot = d.index
    · subst hs
      rw [aux_any_eq_lookup_isSome] at hpresent
      cases hl : List.lookup d.index acc with
      | none => rw [hl] at hpresent; simp at hpresent
      | some w =>
          by_cases ha : d.args = "" <;> simp [ha, updSlot]
    · rw [if_neg hs]
      have hd : ¬(d.index = slot ∧ d.args ≠ "") := fun hc => hs (hc.1.symm)
      simp [hd]
  · rw [if_neg hpresent, aux_lookup_map_upd, aux_lookup_append_single]
    rw [aux_any_eq_lookup_isSome] at hpresent
    by_cases hs : slot = d.index
    · subst hs
      cases hl : List.lookup d.index acc with
      | some w => rw [hl] at hpresent; simp at hpresent
      | none =>
          by_cases ha : d.args = "" <;> simp [ha, updSlot, initSlot]
    · rw [if_neg hs]
      have hd : ¬(d.index = slot ∧ d.args ≠ "") := fun hc => hs (hc.1.symm)
      cases hl : List.lookup slot acc with
      | some w => simp [hd]
      | none => simp [hs, hd]

/-- Folding a delta list appends that list's argument fragments for each
slot, in order. -/
theorem aux_argsAt_foldl_delta (ds : List TCDelta) :
    ∀ acc slot,
      argsAt (ds.foldl applyTCDelta acc) slot
        = argsAt acc slot ++ concatStrings (deltaArgFragments ds slot) := by
  induction ds with
  | nil => intro acc slot; simp [deltaArgFragments, concatStrings]
  | cons d rest ih =>
      intro acc slot
      simp only [List.foldl_cons]
      rw [ih, aux_argsAt_applyTCDelta]
      simp only [deltaArgFragments, List.filterMap_cons]
      by_cases hc : d.index = slot ∧ d.args ≠ ""
      · simp [hc, concatStrings, deltaArgFragments, String.append_assoc]
      · simp [hc, deltaArgFragments]

/-- Processing one chunk appends that chunk's argument fragments. -/
theorem aux_argsAt_processChunk (st : AsmState) (c : Chunk) (slot : Nat) :
    argsAt (processChunk st c).acc slot
      = argsAt st.acc slot
        ++ concatStrings (match c.choice with
            | some d => deltaArgFragments d.tool_calls slot
            | none => []) := by
  unfold processChunk
  cases c.usage with
  | none =>
      cases c.choice with
      | none => simp [concatStrings]
      | some d =>
          by_cases hd : d.content = "" <;>
            simp [hd, aux_argsAt_foldl_delta]
  | some u =>
      cases c.choice with
      | none => simp [concatStrings]
      | some d =>
          by_cases hd : d.content = "" <;>
            simp [hd, aux_argsAt_foldl_delta]

/-- The final argument text of every slot is the ordered concatenation
of that slot's argument fragments across the whole stream. -/
theorem aux_argsAt_stream (chunks : List Chunk) :
    ∀ st slot,
      argsAt (chunks.foldl processChunk st).acc slot
        = argsAt st.acc slot ++ concatStrings (argFragments chunks slot) := by
  induction chunks with
  | nil => intro st slot; simp [argFragments, concatStrings]
  | cons c rest ih =>
      intro st slot
      simp only [List.foldl_cons]
      rw [ih, aux_argsAt_processChunk]
      simp only [argFragments, List.map_cons, List.flatten_cons]
      rw [aux_concatStrings_append, String.append_assoc]

/-! ## Claim theorems: the response assembler -/

/-- **C3.** For every fragment stream, the assembled ASSISTANT message's
content is the concatenation of the text deltas in arrival order — no
matter how they interleave with tool-call deltas and usage fragments —
and its tool-call list is the finalized slots in ascending slot-index
order. -/
theorem assembler_text_and_slot_order (parse : String → Option Args)
    (chunks : List Chunk) :
    (stream_completion parse chunks).1.content
      = concatStrings (textDeltas chunks) ∧
    (stream_completion parse chunks).1.role = Role.ASSISTANT ∧
    List.Sorted (· ≤ ·) (assembledSlots chunks) ∧
    (stream_completion parse chunks).1.tool_calls
      = (assembledSlots chunks).map (fun i =>
          ToolCall.mk (slotRecord chunks i).id (slotRecord chunks i).name
            (finalizeArgs parse (slotRecord chunks i).args)) := by
  refine ⟨?_, rfl, ?_, rfl⟩
  · show concatStrings (finalState chunks).text_parts = _
    rw [show (finalState chunks).text_parts = textDeltas chunks from by
      simpa using aux_foldl_text chunks {}]
  · exact List.sorted_insertionSort _ _

/-- **C4.** For every slot, the finalized argument text is the
concatenation of that slot's argument fragments, so parsing it equals
parsing the fully-formed argument text in one shot; empty argument text
finalizes to the empty mapping, and a parse failure (a raised
`JSONDecodeError`) also finalizes to the empty mapping — finalization is
a total function and never fails the response. -/
theorem assembler_args_one_shot (parse : String → Option Args)
    (chunks : List Chunk) (slot : Nat) :
    (slotRecord chunks slot).args = concatStrings (argFragments chunks slot) ∧
    finalizeArgs parse (slotRecord chunks slot).args
      = finalizeArgs parse (concatStrings (argFragments chunks slot)) ∧
    finalizeArgs parse "" = [] ∧
    (∀ s, parse s = none → finalizeArgs parse s = []) := by
  have hbase : (slotRecord chunks slot).args
      = concatStrings (argFragments chunks slot) := by
    have h := aux_argsAt_stream chunks {} slot
    simpa [finalState, slotRecord, argsAt, initSlot, List.lookup] using h
  refine ⟨hbase, by rw [hbase], rfl, ?_⟩
  intro s hs
  unfold finalizeArgs
  by_cases he : s = "" <;> simp [he, hs]

end Agent
